import Mathlib

/-!
Shallow embedding of the github-airtable importer's core logic
(`fieldsFromIssue`, `issueNumbersToExistingRows`, the update filter of
`updateExistingRows`, the insert/update classification of
`importIssuesToAirtable`, and the batch chunking of `insertNewRows` /
`updateExistingRows`), together with theorems settling the frozen claims
about the reconciliation algorithm.

JavaScript field values are modelled by `JVal` (strings, numbers, arrays
of strings as produced by the destination's multi-value fields, and
`undefined` for an absent property).  Code that would raise a `TypeError`
(property access on `undefined`, `.split` on a non-string) is modelled in
the `Option` monad, `none` standing for the thrown exception that the
surrounding `try`/`catch` would swallow.
-/

namespace GhAir

/-- Model of a JavaScript value stored in a destination-row field or
produced by the field projection: a string, a number (issue numbers are
naturals), a multi-value array of strings, or the absent value
`undefined`. -/
inductive JVal where
  | str : String → JVal
  | num : Nat → JVal
  | arr : List String → JVal
  | undefined : JVal
deriving DecidableEq, Repr

/-- JavaScript truthiness of a modelled value: empty strings, the number
`0` and `undefined` are falsy; arrays are always truthy. -/
def jTruthy : JVal → Bool
  | .str s => !s.isEmpty
  | .num n => n != 0
  | .arr _ => true
  | .undefined => false

/-- The source's `x || undefined` coercion: a falsy value becomes
`undefined`, anything else is returned unchanged. -/
def jvalOrUndefined (v : JVal) : JVal :=
  if jTruthy v then v else .undefined

/-- JavaScript string coercion of a value used as an object property key
(`String(x)`): numbers print in decimal, `undefined` prints as the word
`undefined`, arrays join their elements with commas. -/
def jvalToKey : JVal → String
  | .str s => s
  | .num n => Nat.repr n
  | .arr l => String.intercalate "," l
  | .undefined => "undefined"

/-- Extract the underlying string of a value; `none` models the
`TypeError` raised by calling `.split` on a non-string. -/
def asString : JVal → Option String
  | .str s => some s
  | _ => none

/-- Helper for `splitComma`: accumulate the current piece (reversed) and
cut a new piece at every comma. -/
def splitCommaGo (acc : List Char) : List Char → List String
  | [] => [String.mk acc.reverse]
  | c :: cs =>
    if c = ',' then String.mk acc.reverse :: splitCommaGo [] cs
    else splitCommaGo (c :: acc) cs

/-- JavaScript `s.split(',')`: the pieces of `s` between commas, in
order; the empty string splits to `[""]` and consecutive commas produce
empty pieces. -/
def splitComma (s : String) : List String :=
  splitCommaGo [] s.data

/-- A GitHub issue as consumed by `fieldsFromIssue`: the destructured
attributes of the API record, with `labels` already reduced to the label
names and `assignee` to the optional login. -/
structure Issue where
  created_at : String
  updated_at : String
  title : String
  body : String
  html_url : String
  number : Nat
  labels : List String
  assignee : Option String
  state : String
deriving DecidableEq, Repr

/-- An existing Airtable row: the destination-assigned record id plus its
field mapping (a JavaScript object, modelled as an association list with
distinct keys; lookup of an absent key yields `undefined`). -/
structure Row where
  id : String
  fields : List (String × JVal)
deriving DecidableEq, Repr

/-- Property access `row.fields[key]`: first binding of the key, or
`undefined` when the key is absent. -/
def Row.get (r : Row) (k : String) : JVal :=
  match r.fields.find? (fun kv => kv.1 == k) with
  | some kv => kv.2
  | none => .undefined

/-- Lookup in a projected field object: `some v` when the key is present
with value `v`, `none` when the object has no such key. -/
def fieldsGet (fl : List (String × JVal)) (k : String) : Option JVal :=
  (fl.find? (fun kv => kv.1 == k)).map (fun kv => kv.2)

/-- The field projection `fieldsFromIssue` of the source: the object
literal in its insertion order, with `Labels` the comma-joined label
names and `Assigned to` spread in only when an assignee exists. -/
def fieldsFromIssue (i : Issue) : List (String × JVal) :=
  [("Created At", .str i.created_at),
   ("Updated At", .str i.updated_at),
   ("Issue Number", .num i.number),
   ("Name", .str i.title),
   ("Description", .str i.body),
   ("Github URL", .str i.html_url),
   ("Labels", .str (String.intercalate "," i.labels)),
   ("Status", .str i.state)] ++
  (match i.assignee with
   | some a => [("Assigned to", .str ("@" ++ a))]
   | none => [])

/-- The destructuring `const \x7b 'Created At': _, 'Updated At': _2, ...fields \x7d`
of the update filter: the projected fields with the two timestamp keys
removed, order preserved. -/
def nonTimestampFields (i : Issue) : List (String × JVal) :=
  (fieldsFromIssue i).filter
    (fun kv => !(kv.1 == "Created At") && !(kv.1 == "Updated At"))

/-- The truthy entries of a stored array value
(`existingRow.fields[key].filter((v) => !!v)` of the source). -/
def existingArrValues (a : List String) : List String :=
  a.filter (fun s => !s.isEmpty)

/-- The non-empty comma-separated tokens of a projected string
(`fields[key].split(',').filter((v) => !!v)` of the source). -/
def newArrValues (s : String) : List String :=
  (splitComma s).filter (fun t => !t.isEmpty)

/-- The array branch of the update filter (source lines 111-128): filter
the stored entries down to the truthy ones, report a change when the
stored side is non-empty while the projected value is falsy, otherwise
split the projected string on commas, drop empty pieces, and report a
change when the counts differ or some piece is missing from the stored
entries.  `none` models the `TypeError` of splitting a non-string. -/
def arrayFieldDiff (a : List String) (v : JVal) : Option Bool :=
  if (existingArrValues a).length > 0 && !jTruthy v then
    some true
  else do
    let s ← asString v
    if (existingArrValues a).length ≠ (newArrValues s).length then
      some true
    else
      some ((newArrValues s).any (fun t => !(existingArrValues a).contains t))

/-- The per-field rule of the diff policy, factored from the update
filter: the array comparison when the stored value is an array, otherwise
strict inequality after the `|| undefined` coercion of both sides. -/
def fieldDiffers (stored v : JVal) : Option Bool :=
  match stored with
  | .arr a => arrayFieldDiff a v
  | s => if jvalOrUndefined s = jvalOrUndefined v then some false else some true

/-- The field loop of the update filter (source lines 110-138): walk the
projected fields in insertion order; on an array-valued stored field the
loop body returns the array comparison's verdict directly (so a matching
array ends the whole comparison with `false`); on other fields a
normalized mismatch returns `true` and a match moves to the next field;
an exhausted loop returns `false`. -/
def needsUpdate (g : String → JVal) : List (String × JVal) → Option Bool
  | [] => some false
  | (k, v) :: rest =>
    match g k with
    | .arr a => arrayFieldDiff a v
    | s =>
      if jvalOrUndefined s = jvalOrUndefined v then needsUpdate g rest
      else some true

/-- One `Object.fromEntries` / assignment step: bind the entry's key,
shadowing any earlier binding. -/
def setEntry (m : String → Option Row) (e : String × Row) : String → Option Row :=
  fun k => if k = e.1 then some e.2 else m k

/-- `Object.fromEntries`: fold the entries left to right, later entries
overwriting earlier ones with the same key. -/
def fromEntries (l : List (String × Row)) : String → Option Row :=
  l.foldl setEntry (fun _ => none)

/-- The issue-number lookup object of `importIssuesToAirtable` (source
lines 72-74): each row is keyed by the string coercion of its stored
`Issue Number` field. -/
def issueNumbersToExistingRows (rows : List Row) : String → Option Row :=
  fromEntries (rows.map (fun r => (jvalToKey (r.get "Issue Number"), r)))

/-- The match test of the insert/update split: property lookup of the
issue's number (coerced to its decimal string) finds a row. -/
def hasMatch (m : String → Option Row) (i : Issue) : Bool :=
  (m (Nat.repr i.number)).isSome

/-- The whole update-filter callback for one issue: look up the matched
row (a missing row would be a `TypeError`, hence `none`) and run the
field loop over the non-timestamp projected fields. -/
def issueNeedsUpdate (m : String → Option Row) (i : Issue) : Option Bool := do
  let r ← m (Nat.repr i.number)
  needsUpdate r.get (nonTimestampFields i)

/-- The `rowsToUpdate` mapping step: pair the matched row's id with the
issue's full projection. -/
def updateRowOf (m : String → Option Row) (i : Issue) :
    Option (String × List (String × JVal)) := do
  let r ← m (Nat.repr i.number)
  pure (r.id, fieldsFromIssue i)

/-- `Array.prototype.filter` with a predicate that can throw, in the
`Option` monad: the first `none` aborts the whole filter. -/
def filterOpt (p : α → Option Bool) : List α → Option (List α)
  | [] => some []
  | x :: xs => do
    let b ← p x
    let rest ← filterOpt p xs
    pure (if b then x :: rest else rest)

/-- `Array.prototype.map` with a function that can throw, in the `Option`
monad. -/
def mapOpt (f : α → Option β) : List α → Option (List β)
  | [] => some []
  | x :: xs => do
    let y ← f x
    let ys ← mapOpt f xs
    pure (y :: ys)

/-- The two partitions computed by `importIssuesToAirtable`: the issues
with no matching row (inserted verbatim) and the update pairs of row id
and fresh projection. -/
structure Reconciliation where
  toInsert : List Issue
  toUpdate : List (String × List (String × JVal))
deriving DecidableEq, Repr

/-- The classification performed by `importIssuesToAirtable` (source
lines 98-143 and 162-169): build the issue-number lookup, split the
issues on `hasMatch`, keep the matched issues whose fields differ, and
pair each with its matched row's id.  `none` models an exception caught
by the surrounding `try`/`catch`. -/
def reconcile (issues : List Issue) (rows : List Row) : Option Reconciliation := do
  let updIssues ← filterOpt (issueNeedsUpdate (issueNumbersToExistingRows rows))
    (issues.filter (fun i => hasMatch (issueNumbersToExistingRows rows) i))
  let toUpdate ← mapOpt (updateRowOf (issueNumbersToExistingRows rows)) updIssues
  pure
    { toInsert := issues.filter (fun i => !hasMatch (issueNumbersToExistingRows rows) i),
      toUpdate := toUpdate }

/-- The chunking loop of `insertNewRows` / `updateExistingRows`: slices
of at most 10 records taken from successive start indices 0, 10, 20, .... -/
def chunks10 (l : List α) : List (List α) :=
  match l with
  | [] => []
  | x :: xs => (x :: xs).take 10 :: chunks10 ((x :: xs).drop 10)
termination_by l.length
decreasing_by simp [List.length_drop]; omega

/-- The reported record count: submit every chunk through the API call
`resp` and sum the lengths of the returned record lists, exactly the
`results.reduce` of the source. -/
def batchCount (resp : List α → List β) (l : List α) : Nat :=
  ((chunks10 l).map resp).foldl (fun memo chunkResult => memo + chunkResult.length) 0

/-- The chunk-size sequence determined by an input length alone: blocks
of 10 with a final remainder block. -/
def chunkSizes (n : Nat) : List Nat :=
  match n with
  | 0 => []
  | m + 1 => min 10 (m + 1) :: chunkSizes (m + 1 - 10)
termination_by n
decreasing_by omega

/-- Concrete input for claim C1: an issue whose `Status` changed from
`open` to `closed` while its labels are unchanged, against a row storing
`Labels` as an array. -/
def c1Issue : Issue :=
  { created_at := "2020-01-01", updated_at := "2020-01-02", title := "t", body := "b",
    html_url := "u", number := 1, labels := ["bug"], assignee := none, state := "closed" }

/-- Concrete destination row for claim C1: matches `c1Issue` on every
non-timestamp field except `Status`, with `Labels` stored as an array. -/
def c1Row : Row :=
  { id := "rec1",
    fields := [("Issue Number", .num 1), ("Name", .str "t"), ("Description", .str "b"),
      ("Github URL", .str "u"), ("Labels", .arr ["bug"]), ("Status", .str "open")] }

/-- What claim C4 asserts of a successful classification: `toInsert` is
exactly the unmatched issues; the kept update issues all match a row with
some genuinely differing non-timestamp field; no issue lands in both
partitions; an issue whose projection is stored verbatim lands in
neither; and every update pair carries the matched row's id with the
issue's projection. -/
def ReconcileSpec (issues : List Issue) (rows : List Row) (res : Reconciliation) : Prop :=
  (∀ i, i ∈ res.toInsert ↔
    i ∈ issues ∧ hasMatch (issueNumbersToExistingRows rows) i = false) ∧
  ∃ upd : List Issue,
    filterOpt (issueNeedsUpdate (issueNumbersToExistingRows rows))
        (issues.filter (fun i => hasMatch (issueNumbersToExistingRows rows) i)) = some upd ∧
    mapOpt (updateRowOf (issueNumbersToExistingRows rows)) upd = some res.toUpdate ∧
    (∀ i ∈ upd, i ∈ issues ∧
      ∃ r, issueNumbersToExistingRows rows (Nat.repr i.number) = some r ∧
        ∃ kv ∈ nonTimestampFields i, fieldDiffers (r.get kv.1) kv.2 = some true) ∧
    (∀ i, ¬(i ∈ res.toInsert ∧ i ∈ upd)) ∧
    (∀ i ∈ issues, ∀ r, issueNumbersToExistingRows rows (Nat.repr i.number) = some r →
      (∀ kv ∈ nonTimestampFields i, r.get kv.1 = kv.2) →
      i ∉ res.toInsert ∧ i ∉ upd) ∧
    (∀ p ∈ res.toUpdate, ∃ i ∈ upd, ∃ r,
      issueNumbersToExistingRows rows (Nat.repr i.number) = some r ∧
      p = (r.id, fieldsFromIssue i))

/-! ### Helper lemmas -/

/-- Every element of a successful `filterOpt` run comes from the input
and satisfies the predicate with verdict `true`. -/
theorem filterOpt_mem {p : α → Option Bool} {l out : List α}
    (h : filterOpt p l = some out) : ∀ x ∈ out, x ∈ l ∧ p x = some true := by
  induction l generalizing out with
  | nil =>
    simp only [filterOpt, Option.some.injEq] at h
    subst h
    intro x hx
    simp at hx
  | cons a l ih =>
    intro x hx
    rw [filterOpt] at h
    rcases hpa : p a with _ | b <;> rw [hpa] at h
    · simp at h
    · rcases hrest : filterOpt p l with _ | rest <;> rw [hrest] at h
      · simp at h
      · simp only [Option.bind_eq_bind, Option.some_bind, Option.pure_def,
          Option.some.injEq] at h
        subst h
        cases b with
        | true =>
          rcases List.mem_cons.mp (by simpa using hx) with hxa | hxr
          · subst hxa
            exact ⟨List.mem_cons_self _ _, hpa⟩
          · obtain ⟨h1, h2⟩ := ih hrest x hxr
            exact ⟨List.mem_cons_of_mem _ h1, h2⟩
        | false =>
          obtain ⟨h1, h2⟩ := ih hrest x (by simpa using hx)
          exact ⟨List.mem_cons_of_mem _ h1, h2⟩

/-- Every element of a successful `mapOpt` run is the image of some
input element. -/
theorem mapOpt_mem {f : α → Option β} {l : List α} {out : List β}
    (h : mapOpt f l = some out) : ∀ y ∈ out, ∃ x ∈ l, f x = some y := by
  induction l generalizing out with
  | nil =>
    simp only [mapOpt, Option.some.injEq] at h
    subst h
    intro y hy
    simp at hy
  | cons a l ih =>
    intro y hy
    rw [mapOpt] at h
    rcases hfa : f a with _ | b <;> rw [hfa] at h
    · simp at h
    · rcases hrest : mapOpt f l with _ | ys <;> rw [hrest] at h
      · simp at h
      · simp only [Option.bind_eq_bind, Option.some_bind, Option.pure_def,
          Option.some.injEq] at h
        subst h
        rcases List.mem_cons.mp hy with hya | hyr
        · subst hya
          exact ⟨a, List.mem_cons_self _ _, hfa⟩
        · obtain ⟨x, h1, h2⟩ := ih hrest y hyr
          exact ⟨x, List.mem_cons_of_mem _ h1, h2⟩

/-- Folding `setEntry` over entries none of which carry the key leaves
the key's binding unchanged. -/
theorem foldl_setEntry_no_key (l : List (String × Row)) (m : String → Option Row)
    (k : String) (h : ∀ e ∈ l, e.1 ≠ k) : l.foldl setEntry m k = m k := by
  induction l generalizing m with
  | nil => rfl
  | cons e l ih =>
    rw [List.foldl_cons, ih _ (fun e' he' => h e' (List.mem_cons_of_mem _ he'))]
    rw [setEntry, if_neg (fun hk => (h e (List.mem_cons_self _ _)) hk.symm)]

/-- `Object.fromEntries` keeps, for each key, the value of the last
entry carrying that key. -/
theorem fromEntries_last_wins (l1 l2 : List (String × Row)) (k : String) (r : Row)
    (h : ∀ e ∈ l2, e.1 ≠ k) : fromEntries (l1 ++ (k, r) :: l2) k = some r := by
  rw [fromEntries, List.foldl_append, List.foldl_cons,
    foldl_setEntry_no_key _ _ _ h, setEntry, if_pos rfl]

/-- The fold underlying `fromEntries` produces a binding for a key
exactly when some entry carries it (or the seed map already did). -/
theorem foldl_setEntry_isSome (l : List (String × Row)) (m : String → Option Row)
    (k : String) :
    (l.foldl setEntry m k).isSome = (l.any (fun e => e.1 == k) || (m k).isSome) := by
  induction l generalizing m with
  | nil => simp
  | cons e l ih =>
    rw [List.foldl_cons, ih]
    by_cases hk : e.1 = k
    · simp [setEntry, hk]
    · have hb : (e.1 == k) = false := beq_eq_false_iff_ne.mpr hk
      simp [setEntry, Ne.symm hk, hb]

/-- `fromEntries` binds a key exactly when some entry carries it. -/
theorem fromEntries_isSome (l : List (String × Row)) (k : String) :
    (fromEntries l k).isSome = l.any (fun e => e.1 == k) := by
  rw [fromEntries, foldl_setEntry_isSome]
  simp

/-- If every non-timestamp projected field is stored verbatim (and no
projected value is an array, as holds for every projection), the field
loop reports no difference. -/
theorem needsUpdate_of_all_eq (g : String → JVal) (fl : List (String × JVal))
    (h : ∀ kv ∈ fl, g kv.1 = kv.2) (harr : ∀ kv ∈ fl, ∀ a, kv.2 ≠ JVal.arr a) :
    needsUpdate g fl = some false := by
  induction fl with
  | nil => rfl
  | cons kv rest ih =>
    obtain ⟨k, v⟩ := kv
    have hg : g k = v := h _ (List.mem_cons_self _ _)
    have hv : ∀ a, v ≠ JVal.arr a := harr _ (List.mem_cons_self _ _)
    have ihr := ih (fun kv hkv => h kv (List.mem_cons_of_mem _ hkv))
      (fun kv hkv => harr kv (List.mem_cons_of_mem _ hkv))
    rw [needsUpdate, hg]
    cases v with
    | arr a => exact absurd rfl (hv a)
    | str s => simp only [if_true]; exact ihr
    | num n => simp only [if_true]; exact ihr
    | undefined => simp only [if_true]; exact ihr

/-- When the field loop reports a difference, some walked field really
differs under the per-field rule. -/
theorem needsUpdate_true_exists (g : String → JVal) (fl : List (String × JVal))
    (h : needsUpdate g fl = some true) :
    ∃ kv ∈ fl, fieldDiffers (g kv.1) kv.2 = some true := by
  induction fl with
  | nil => simp [needsUpdate] at h
  | cons kv rest ih =>
    obtain ⟨k, v⟩ := kv
    rw [needsUpdate] at h
    cases hg : g k
    case arr a =>
      rw [hg] at h
      exact ⟨(k, v), List.mem_cons_self _ _, by simp [fieldDiffers, hg]; exact h⟩
    all_goals
      rw [hg] at h
      simp only [] at h
      split_ifs at h with hc
      · obtain ⟨kv', hkv', hd⟩ := ih h
        exact ⟨kv', List.mem_cons_of_mem _ hkv', hd⟩
      · exact ⟨(k, v), List.mem_cons_self _ _, by simp [fieldDiffers, hg, hc]⟩

/-- Strong-induction principle matching the chunking loop: a property
holds of every list once it holds of `[]` and is preserved from the tail
beyond the first 10 elements. -/
theorem chunks10_rec {α : Type _} (P : List α → Prop) (h0 : P ([] : List α))
    (h1 : ∀ (x : α) (xs : List α), P ((x :: xs).drop 10) → P (x :: xs))
    (l : List α) : P l := by
  have H : ∀ n (l : List α), l.length ≤ n → P l := by
    intro n
    induction n with
    | zero =>
      intro l hl
      cases l with
      | nil => exact h0
      | cons x xs => simp at hl
    | succ n ih =>
      intro l hl
      cases l with
      | nil => exact h0
      | cons x xs =>
        apply h1
        apply ih
        simp only [List.length_drop, List.length_cons] at *
        omega
  exact H l.length l le_rfl

/-- Every chunk produced by the loop holds at most 10 records. -/
theorem chunks10_le (l : List α) : ∀ c ∈ chunks10 l, c.length ≤ 10 := by
  refine chunks10_rec (fun l => ∀ c ∈ chunks10 l, c.length ≤ 10) (by simp [chunks10]) ?_ l
  intro x xs ih c hc
  simp only [chunks10] at hc
  rcases List.mem_cons.mp hc with hce | hcr
  · subst hce
    simp [List.length_take]
  · exact ih c hcr

/-- The chunks concatenate back to the input. -/
theorem chunks10_flatten (l : List α) : (chunks10 l).flatten = l := by
  refine chunks10_rec (fun l => (chunks10 l).flatten = l) (by simp [chunks10]) ?_ l
  intro x xs ih
  rw [chunks10]
  simp only [List.flatten_cons, ih]
  exact List.take_append_drop 10 (x :: xs)

/-- The chunk sizes are determined by the input length. -/
theorem chunks10_sizes (l : List α) : (chunks10 l).map List.length = chunkSizes l.length := by
  refine chunks10_rec (fun l => (chunks10 l).map List.length = chunkSizes l.length)
    (by simp [chunks10, chunkSizes]) ?_ l
  intro x xs ih
  rw [chunks10]
  simp only [List.map_cons, List.length_take, List.length_cons, List.length_drop, ih]
  simp [chunkSizes]

/-- Summing response lengths over the mapped chunks adds the flattened
length to the accumulator, provided each response echoes its chunk's
length. -/
theorem foldl_add_length (resp : List α → List β) (h : ∀ c, (resp c).length = c.length)
    (cs : List (List α)) :
    ∀ n : Nat, ((cs.map resp).foldl (fun memo r => memo + r.length) n) = n + (cs.flatten).length := by
  induction cs with
  | nil => intro n; simp
  | cons c cs ih =>
    intro n
    simp only [List.map_cons, List.foldl_cons, List.flatten_cons, List.length_append, ih, h c]
    omega

/-- `any` over a mapped list tests the composite predicate. -/
theorem any_map_eq (f : α → β) (p : β → Bool) (l : List α) :
    (l.map f).any p = l.any (fun x => p (f x)) := by
  induction l with
  | nil => rfl
  | cons a l ih => simp [ih]

/-- No projected field value is ever an array: the projection emits only
strings and the issue number. -/
theorem fieldsFromIssue_values_not_arr (i : Issue) :
    ∀ kv ∈ fieldsFromIssue i, ∀ a, kv.2 ≠ JVal.arr a := by
  intro kv hkv a
  cases hassign : i.assignee with
  | none =>
    simp [fieldsFromIssue, hassign] at hkv
    rcases hkv with rfl | rfl | rfl | rfl | rfl | rfl | rfl | rfl <;> simp
  | some u =>
    simp [fieldsFromIssue, hassign] at hkv
    rcases hkv with rfl | rfl | rfl | rfl | rfl | rfl | rfl | rfl | rfl <;> simp

/-! ### Claim theorems -/

/-- Claim C1 (code bug evaluation): the claim says an issue is flagged
for update exactly when some non-timestamp projected field differs under
the per-field rules.  On `c1Issue` versus `c1Row` the projected `Status`
(`closed`) differs from the stored `Status` (`open`) under the scalar
rule, yet the update filter answers `false` and the classification
leaves the issue out of `toUpdate`: the field loop returns right after
the array-valued `Labels` field compares equal, never reaching `Status`. -/
theorem c1_later_fields_skipped_after_equal_array :
    ("Status", JVal.str "closed") ∈ nonTimestampFields c1Issue ∧
    c1Row.get "Status" = JVal.str "open" ∧
    fieldDiffers (c1Row.get "Status") (JVal.str "closed") = some true ∧
    needsUpdate c1Row.get (nonTimestampFields c1Issue) = some false ∧
    reconcile [c1Issue] [c1Row] = some { toInsert := [], toUpdate := [] } :=
  ⟨by decide, by decide, by decide, by decide, by decide⟩

/-- Claim C3: if every projected field except `Created At` and
`Updated At` is stored verbatim in the matched row, the update filter
reports no difference — however the stored and projected timestamps
relate, since the two timestamp keys are destructured away before the
comparison. -/
theorem c3_timestamp_only_differences_never_update (i : Issue) (r : Row)
    (h : ∀ kv ∈ nonTimestampFields i, r.get kv.1 = kv.2) :
    needsUpdate r.get (nonTimestampFields i) = some false := by
  refine needsUpdate_of_all_eq _ _ h ?_
  intro kv hkv
  exact fieldsFromIssue_values_not_arr i kv (List.mem_of_mem_filter hkv)

/-- Witness for C3: a row whose stored timestamps differ from the
projected ones but whose other fields are stored verbatim is not flagged. -/
theorem c3_witness :
    needsUpdate
      (Row.mk "rec3"
        [("Created At", JVal.str "X"), ("Updated At", JVal.str "Y"),
         ("Issue Number", JVal.num 2), ("Name", JVal.str "n"),
         ("Description", JVal.str "d"), ("Github URL", JVal.str "g"),
         ("Labels", JVal.str ""), ("Status", JVal.str "open")]).get
      (nonTimestampFields (Issue.mk "a" "b" "n" "d" "g" 2 [] none "open")) = some false :=
  c3_timestamp_only_differences_never_update _ _ (by decide)

/-- Claim C5: reconciling any issue list against an empty existing-row
list classifies every issue as `toInsert` and none as `toUpdate`. -/
theorem c5_empty_rows_insert_all (issues : List Issue) :
    reconcile issues [] = some { toInsert := issues, toUpdate := [] } := by
  have hm : issueNumbersToExistingRows [] = fun _ => none := rfl
  simp [reconcile, hm, hasMatch, filterOpt, mapOpt]

/-- Claim C9: the projection has an `Assigned to` key exactly when the
issue has an assignee, with value `@` followed by the handle; the eight
other keys are always present; `Labels` is the comma-joined label names
in label order, the join of no labels being the empty string. -/
theorem c9_projection_shape (i : Issue) :
    fieldsGet (fieldsFromIssue i) "Assigned to" =
      i.assignee.map (fun h => JVal.str ("@" ++ h)) ∧
    (["Created At", "Updated At", "Issue Number", "Name", "Description",
        "Github URL", "Labels", "Status"].all
      (fun k => (fieldsGet (fieldsFromIssue i) k).isSome)) = true ∧
    fieldsGet (fieldsFromIssue i) "Labels" =
      some (JVal.str (String.intercalate "," i.labels)) ∧
    String.intercalate "," ([] : List String) = "" := by
  cases hassign : i.assignee with
  | none =>
    rw [fieldsFromIssue, hassign]
    exact ⟨rfl, rfl, rfl, rfl⟩
  | some u =>
    rw [fieldsFromIssue, hassign]
    exact ⟨rfl, rfl, rfl, rfl⟩

/-- Claim C10: an issue matches a destination row exactly when the
string coercion of the row's stored issue-number field equals the
decimal string of the issue's number — in particular a row storing the
string `"5"` matches the issue numbered `5`. -/
theorem c10_match_is_by_stringified_key (rows : List Row) (i : Issue) :
    hasMatch (issueNumbersToExistingRows rows) i =
      rows.any (fun r => jvalToKey (r.get "Issue Number") == Nat.repr i.number) ∧
    hasMatch
      (issueNumbersToExistingRows [Row.mk "r5" [("Issue Number", JVal.str "5")]])
      (Issue.mk "" "" "" "" "" 5 [] none "") = true := by
  constructor
  · rw [hasMatch, issueNumbersToExistingRows, fromEntries_isSome, any_map_eq]
  · decide

/-- Claim C6: with duplicate issue numbers in the destination, the
lookup mapping keeps the last row supplied for each key, and every
matched issue's update pair carries that last row's identifier. -/
theorem c6_last_duplicate_row_wins (l1 l2 : List Row) (r : Row) (k : String)
    (hk : jvalToKey (r.get "Issue Number") = k)
    (h2 : ∀ r2 ∈ l2, jvalToKey (r2.get "Issue Number") ≠ k) :
    issueNumbersToExistingRows (l1 ++ r :: l2) k = some r ∧
    ∀ i : Issue, Nat.repr i.number = k →
      updateRowOf (issueNumbersToExistingRows (l1 ++ r :: l2)) i =
        some (r.id, fieldsFromIssue i) := by
  have hmap : issueNumbersToExistingRows (l1 ++ r :: l2) k = some r := by
    rw [issueNumbersToExistingRows, List.map_append, List.map_cons, hk]
    refine fromEntries_last_wins _ _ _ _ ?_
    intro e he
    obtain ⟨r2, hr2, rfl⟩ := List.mem_map.mp he
    exact h2 r2 hr2
  refine ⟨hmap, ?_⟩
  intro i hi
  rw [updateRowOf, hi, hmap]
  rfl

/-- Witness for C6: two rows both storing issue number 7 — the mapping
returns the second, and the update pair of an issue numbered 7 carries
the second row's id. -/
theorem c6_witness :
    issueNumbersToExistingRows
        [Row.mk "recA" [("Issue Number", JVal.num 7)],
         Row.mk "recB" [("Issue Number", JVal.num 7)]] "7" =
      some (Row.mk "recB" [("Issue Number", JVal.num 7)]) ∧
    updateRowOf
        (issueNumbersToExistingRows
          [Row.mk "recA" [("Issue Number", JVal.num 7)],
           Row.mk "recB" [("Issue Number", JVal.num 7)]])
        (Issue.mk "" "" "" "" "" 7 [] none "") =
      some ("recB", fieldsFromIssue (Issue.mk "" "" "" "" "" 7 [] none "")) :=
  ⟨(c6_last_duplicate_row_wins [Row.mk "recA" [("Issue Number", JVal.num 7)]] []
      (Row.mk "recB" [("Issue Number", JVal.num 7)]) "7" (by decide) (by simp)).1,
   (c6_last_duplicate_row_wins [Row.mk "recA" [("Issue Number", JVal.num 7)]] []
      (Row.mk "recB" [("Issue Number", JVal.num 7)]) "7" (by decide) (by simp)).2
     (Issue.mk "" "" "" "" "" 7 [] none "") (by decide)⟩

/-- Claim C7: for a non-array stored value, the scalar per-field rule
declares a difference exactly when the two values still differ after the
`|| undefined` coercion that collapses missing/empty values to the
canonical absent value — in particular an empty string on either side
compares equal to an absent field. -/
theorem c7_scalar_rule_normalizes_empty (s v : JVal) (h : ∀ a, s ≠ JVal.arr a) :
    (fieldDiffers s v = some true ↔ jvalOrUndefined s ≠ jvalOrUndefined v) ∧
    fieldDiffers (JVal.str "") JVal.undefined = some false ∧
    fieldDiffers JVal.undefined (JVal.str "") = some false := by
  refine ⟨?_, by decide, by decide⟩
  cases s with
  | arr a => exact absurd rfl (h a)
  | str t =>
    by_cases hc : jvalOrUndefined (JVal.str t) = jvalOrUndefined v <;>
      simp [fieldDiffers, hc]
  | num n =>
    by_cases hc : jvalOrUndefined (JVal.num n) = jvalOrUndefined v <;>
      simp [fieldDiffers, hc]
  | undefined =>
    by_cases hc : jvalOrUndefined JVal.undefined = jvalOrUndefined v <;>
      simp [fieldDiffers, hc]

/-- Witness for C7 at a concrete non-array stored value. -/
theorem c7_witness :
    (fieldDiffers (JVal.str "x") JVal.undefined = some true ↔
      jvalOrUndefined (JVal.str "x") ≠ jvalOrUndefined JVal.undefined) ∧
    fieldDiffers (JVal.str "") JVal.undefined = some false ∧
    fieldDiffers JVal.undefined (JVal.str "") = some false :=
  c7_scalar_rule_normalizes_empty (JVal.str "x") JVal.undefined (by intro a h; cases h)

/-- Claim C8: the batch writer splits its input into contiguous chunks
of at most 10 records that concatenate back to the input; when every
chunk call succeeds (echoing one record per input record) the reported
count is the input length; and an input of 23 records yields chunks of
sizes 10, 10 and 3. -/
theorem c8_batch_chunking {β : Type} (l : List α) (resp : List α → List β)
    (h : ∀ c, (resp c).length = c.length) :
    (∀ c ∈ chunks10 l, c.length ≤ 10) ∧
    (chunks10 l).flatten = l ∧
    batchCount resp l = l.length ∧
    (l.length = 23 → (chunks10 l).map List.length = [10, 10, 3]) := by
  refine ⟨chunks10_le l, chunks10_flatten l, ?_, ?_⟩
  · rw [batchCount, foldl_add_length resp h, chunks10_flatten]
    simp
  · intro h23
    rw [chunks10_sizes, h23]
    simp [chunkSizes]

/-- Witness for C8: 23 records, each chunk call echoing its input. -/
theorem c8_witness :
    batchCount (fun c => c) (List.range 23) = 23 ∧
    (chunks10 (List.range 23)).map List.length = [10, 10, 3] := by
  have h := c8_batch_chunking (List.range 23) (fun c => c) (fun _ => rfl)
  exact ⟨by simpa using h.2.2.1, h.2.2.2 (by simp)⟩

/-- Evaluation of the array branch on a projected string: the verdict is
a length mismatch or a token missing from the stored entries. -/
theorem arrayFieldDiff_str (a : List String) (p : String) :
    arrayFieldDiff a (JVal.str p) =
      some (decide ((existingArrValues a).length ≠ (newArrValues p).length) ||
        (newArrValues p).any (fun t => !(existingArrValues a).contains t)) := by
  rw [arrayFieldDiff]
  split_ifs with h0
  · simp only [Bool.and_eq_true, decide_eq_true_eq, jTruthy, Bool.not_not] at h0
    obtain ⟨hlen, hp⟩ := h0
    have hp0 : p = "" := (String.isEmpty_iff p).mp hp
    subst hp0
    have hN : newArrValues "" = [] := rfl
    rw [hN]
    simp only [List.any_nil, Bool.or_false, List.length_nil]
    have : (existingArrValues a).length ≠ 0 := Nat.pos_iff_ne_zero.mp hlen
    simp [this]
  · simp only [asString, Option.bind_eq_bind, Option.some_bind]
    split_ifs with h1
    · simp [h1]
    · simp [h1]

/-- Claim C2 counterexample: the stored array `["bug", "bug"]` and the
projected string `"bug"` have the same set of non-empty entries/tokens
(each side's entries all occur on the other), yet the array comparison
reports a difference, because the code compares entry counts with
multiplicity rather than as sets. -/
theorem c2_counterexample_duplicate_entries :
    ((existingArrValues ["bug", "bug"]).all
        (fun s => (newArrValues "bug").contains s)) = true ∧
    ((newArrValues "bug").all
        (fun t => (existingArrValues ["bug", "bug"]).contains t)) = true ∧
    arrayFieldDiff ["bug", "bug"] (JVal.str "bug") = some true :=
  ⟨by decide, by decide, by decide⟩

/-- Claim C2 (amended): with `E` the non-empty stored entries and `N`
the non-empty comma-separated tokens of the projected string, the Labels
comparison reports no difference when `E` and `N` agree in count and
every token of `N` occurs in `E` — regardless of the order of elements
on either side — and reports a difference exactly when the stored side
has a non-empty entry while the projected side parses to none, or the
two sides differ in number of elements, or some parsed token is absent
from the stored entries. -/
theorem c2_labels_array_rule (a : List String) (p : String) :
    ((existingArrValues a).length = (newArrValues p).length ∧
        (∀ t ∈ newArrValues p, (existingArrValues a).contains t = true) →
      arrayFieldDiff a (JVal.str p) = some false) ∧
    (arrayFieldDiff a (JVal.str p) = some true ↔
      (existingArrValues a ≠ [] ∧ newArrValues p = []) ∨
        (existingArrValues a).length ≠ (newArrValues p).length ∨
        ∃ t ∈ newArrValues p, (existingArrValues a).contains t = false) ∧
    ∀ a2, a.Perm a2 →
      arrayFieldDiff a (JVal.str p) = arrayFieldDiff a2 (JVal.str p) := by
  refine ⟨?_, ?_, ?_⟩
  · rintro ⟨hlen, hall⟩
    rw [arrayFieldDiff_str]
    have h1 : decide ((existingArrValues a).length ≠ (newArrValues p).length) = false := by
      simp [hlen]
    have h2 : (newArrValues p).any (fun t => !(existingArrValues a).contains t) = false := by
      rw [List.any_eq_false]
      intro t ht
      rw [hall t ht]
      simp
    rw [h1, h2]
    rfl
  · rw [arrayFieldDiff_str]
    constructor
    · intro h
      have hb := Option.some.inj h
      simp only [Bool.or_eq_true, decide_eq_true_eq, List.any_eq_true,
        Bool.not_eq_true'] at hb
      exact Or.inr hb
    · intro h
      refine congrArg some ?_
      simp only [Bool.or_eq_true, decide_eq_true_eq, List.any_eq_true, Bool.not_eq_true']
      rcases h with ⟨hne, hN⟩ | h | h
      · refine Or.inl ?_
        rw [hN]
        simpa [List.length_eq_zero] using hne
      · exact Or.inl h
      · exact Or.inr h
  · intro a2 hp2
    have hE : (existingArrValues a).Perm (existingArrValues a2) := by
      rw [existingArrValues, existingArrValues]
      exact hp2.filter _
    have hlen : (existingArrValues a).length = (existingArrValues a2).length :=
      hE.length_eq
    have hcont : ∀ t, (existingArrValues a).contains t = (existingArrValues a2).contains t := by
      intro t
      by_cases ht : t ∈ existingArrValues a
      · have ht2 : t ∈ existingArrValues a2 := hE.mem_iff.mp ht
        have c1 : (existingArrValues a).contains t = true := List.elem_iff.mpr ht
        have c2 : (existingArrValues a2).contains t = true := List.elem_iff.mpr ht2
        rw [c1, c2]
      · have ht2 : t ∉ existingArrValues a2 := fun hmem => ht (hE.mem_iff.mpr hmem)
        have c1 : (existingArrValues a).contains t = false := by simpa using ht
        have c2 : (existingArrValues a2).contains t = false := by simpa using ht2
        rw [c1, c2]
    have hfun : (fun t => !(existingArrValues a).contains t) =
        (fun t => !(existingArrValues a2).contains t) := by
      funext t
      rw [hcont t]
    rw [arrayFieldDiff_str, arrayFieldDiff_str, hlen, hfun]

/-- Witness for the amended C2: identical label sets in different order
compare equal both ways. -/
theorem c2_witness :
    arrayFieldDiff ["bug", "ui"] (JVal.str "ui,bug") =
      arrayFieldDiff ["ui", "bug"] (JVal.str "ui,bug") ∧
    arrayFieldDiff ["bug", "ui"] (JVal.str "ui,bug") = some false :=
  ⟨(c2_labels_array_rule ["bug", "ui"] "ui,bug").2.2 ["ui", "bug"] (by decide),
   (c2_labels_array_rule ["bug", "ui"] "ui,bug").1 ⟨by decide, by decide⟩⟩

/-- Claim C4: whenever the classification succeeds, `toInsert` is
exactly the unmatched issues, the kept update issues all match a row
with a genuinely differing non-timestamp field, the two partitions are
disjoint, verbatim-stored issues land in neither, and every update pair
carries the matched row's id with the issue's projection. -/
theorem c4_reconcile_partitions (issues : List Issue) (rows : List Row)
    (res : Reconciliation) (h : reconcile issues rows = some res) :
    ReconcileSpec issues rows res := by
  rw [reconcile] at h
  rcases hupd : filterOpt (issueNeedsUpdate (issueNumbersToExistingRows rows))
      (issues.filter fun i => hasMatch (issueNumbersToExistingRows rows) i) with _ | upd <;>
    rw [hupd] at h
  · simp at h
  · simp only [Option.bind_eq_bind, Option.some_bind] at h
    rcases hmapp : mapOpt (updateRowOf (issueNumbersToExistingRows rows)) upd with _ | tu <;>
      rw [hmapp] at h
    · simp at h
    · simp only [Option.bind_eq_bind, Option.some_bind, Option.pure_def,
        Option.some.injEq] at h
      subst h
      refine ⟨?_, upd, hupd, hmapp, ?_, ?_, ?_, ?_⟩
      · intro i
        simp [List.mem_filter]
      · intro i hi
        obtain ⟨hmem, htrue⟩ := filterOpt_mem hupd i hi
        rw [List.mem_filter] at hmem
        rw [issueNeedsUpdate] at htrue
        rcases hr : issueNumbersToExistingRows rows (Nat.repr i.number) with _ | r <;>
          rw [hr] at htrue
        · simp at htrue
        · simp only [Option.bind_eq_bind, Option.some_bind] at htrue
          exact ⟨hmem.1, r, rfl, needsUpdate_true_exists _ _ htrue⟩
      · rintro i ⟨hin, hup⟩
        rw [List.mem_filter] at hin
        obtain ⟨hmem, _⟩ := filterOpt_mem hupd i hup
        rw [List.mem_filter] at hmem
        rw [hmem.2] at hin
        simp at hin
      · intro i hi r hr hall
        constructor
        · intro hin
          rw [List.mem_filter] at hin
          rw [hasMatch, hr] at hin
          simp at hin
        · intro hup
          obtain ⟨_, htrue⟩ := filterOpt_mem hupd i hup
          rw [issueNeedsUpdate, hr] at htrue
          simp only [Option.bind_eq_bind, Option.some_bind] at htrue
          have hfalse : needsUpdate r.get (nonTimestampFields i) = some false :=
            needsUpdate_of_all_eq _ _ hall
              (fun kv hkv => fieldsFromIssue_values_not_arr i kv (List.mem_of_mem_filter hkv))
          rw [hfalse] at htrue
          simp at htrue
      · intro p hp
        obtain ⟨i, hiupd, hupair⟩ := mapOpt_mem hmapp p hp
        rw [updateRowOf] at hupair
        rcases hr : issueNumbersToExistingRows rows (Nat.repr i.number) with _ | r <;>
          rw [hr] at hupair
        · simp at hupair
        · simp only [Option.bind_eq_bind, Option.some_bind, Option.pure_def,
            Option.some.injEq] at hupair
          exact ⟨i, hiupd, r, hr, hupair.symm⟩

/-- Witness for C4 on a one-issue, no-row instance. -/
theorem c4_witness :
    ReconcileSpec [Issue.mk "" "" "" "" "" 1 [] none ""] []
      { toInsert := [Issue.mk "" "" "" "" "" 1 [] none ""], toUpdate := [] } :=
  c4_reconcile_partitions _ _ _ (by decide)

end GhAir
